import Mathlib

/-!
Verification development for the article-scraping pipeline
(`scripts/scrape_qiita.py`).

The Python functions are shallowly embedded over `List Char` (a Python
string is a sequence of code points).  Python primitives used in the
script (`str.strip`, `str.split`, `str.join`, `str.rstrip`,
`str.startswith`) are modelled by structurally recursive Lean
functions with matching semantics.  The network and the translation
backend are modelled as an explicit function parameter
`tr : List Char -> Option (List Char)`; `none` stands for a raised
exception, and the number of backend invocations is threaded through
the translator as an explicit counter.
-/

/-- Python strings are sequences of code points. -/
abbrev PyStr := List Char

/-- The whitespace test used by Python `str.strip` / `str.lstrip`
(restricted to the ASCII whitespace characters). -/
def pyIsSpace (c : Char) : Bool :=
  c = ' ' || c = '\t' || c = '\n' || c = '\r' || c = '\x0b' || c = '\x0c'

/-- Python `s.lstrip()`. -/
def pyLstrip (s : PyStr) : PyStr := s.dropWhile pyIsSpace

/-- Python `s.strip()`: drop whitespace from both ends. -/
def pyStrip (s : PyStr) : PyStr :=
  ((s.dropWhile pyIsSpace).reverse.dropWhile pyIsSpace).reverse

/-- Python `url.rstrip("/")`: drop trailing slash characters. -/
def rstripSlash (s : PyStr) : PyStr :=
  (s.reverse.dropWhile (fun c => c = '/')).reverse

/-- Python `s.split(sep)` for a one-character separator `sep`. -/
def splitOnChar (sep : Char) : PyStr → List PyStr
  | [] => [[]]
  | c :: rest =>
    if c = sep then [] :: splitOnChar sep rest
    else
      match splitOnChar sep rest with
      | [] => [[c]]
      | p :: ps => (c :: p) :: ps

/-- Python `text.split("\n\n")`: split on the two-character paragraph
separator, scanning left to right without overlap. -/
def splitNN : PyStr → List PyStr
  | [] => [[]]
  | [c] => [[c]]
  | c :: d :: rest =>
    if c = '\n' ∧ d = '\n' then [] :: splitNN rest
    else
      match splitNN (d :: rest) with
      | [] => [[c]]
      | p :: ps => (c :: p) :: ps

/-- Python `sep.join(pieces)`. -/
def joinSep (sep : PyStr) : List PyStr → PyStr
  | [] => []
  | [p] => p
  | p :: q :: ps => p ++ sep ++ joinSep sep (q :: ps)

/-- Whether the string contains two consecutive newline characters. -/
def hasNN : PyStr → Bool
  | [] => false
  | [_] => false
  | c :: d :: rest => (c = '\n' && d = '\n') || hasNN (d :: rest)

/-- Whether the string contains three consecutive newline characters. -/
def hasTriple : PyStr → Bool
  | [] => false
  | [_] => false
  | [_, _] => false
  | a :: b :: c :: rest =>
    (a = '\n' && b = '\n' && c = '\n') || hasTriple (b :: c :: rest)

/-!
## LinkSource: `read_links_from_docs_readme` (lines 37-53)

The file is modelled as its list of lines.  The regular expression
`\[(.*?)\]\((https?://[^\)]+)\)` used by `re.search` is modelled
faithfully: leftmost starting position, lazy title group, greedy URL
body up to the closing parenthesis.
-/

structure LinkItem where
  title : PyStr
  url : PyStr
  parent : Option PyStr
deriving DecidableEq

/-- Match the regex fragment `(https?://[^\)]+)\)` against `u`: an
http or https scheme, then a non-empty greedy run of characters other
than the closing parenthesis, which must follow.  Returns the URL
group on success. -/
def matchUrl (u : PyStr) : Option PyStr :=
  let go : Nat → Option PyStr := fun n =>
    let rest := u.drop n
    let run := rest.takeWhile (fun c => ¬ c = ')')
    if run = [] then none
    else if (rest.drop run.length).head? = some ')' then
      some (u.take n ++ run)
    else none
  if ("https://".data).isPrefixOf u then go 8
  else if ("http://".data).isPrefixOf u then go 7
  else none

/-- Scan for the lazy title group: at each position either the
continuation `](URL)` matches (shortest title wins, as with the lazy
`.*?`), or one more non-newline character is absorbed into the title. -/
def scanTitle : PyStr → Option (PyStr × PyStr)
  | [] => none
  | c :: rest =>
    match (if c = ']' ∧ rest.head? = some '(' then
             (matchUrl rest.tail).map (fun u => (([] : PyStr), u))
           else none) with
    | some r => some r
    | none =>
      if c = '\n' then none
      else (scanTitle rest).map (fun p => (c :: p.1, p.2))

/-- Model of `re.search(r"\[(.*?)\]\((https?://[^\)]+)\)", line)`:
try every starting position from the left; a match must begin with a
literal opening bracket. -/
def reSearch : PyStr → Option (PyStr × PyStr)
  | [] => none
  | c :: rest =>
    match (if c = '[' then scanTitle rest else none) with
    | some r => some r
    | none => reSearch rest

/-- Loop body of `read_links_from_docs_readme`, accumulating `links`
exactly as the Python loop does: strip the line, require a leading
list marker, search for the link pattern, compute the indentation of
the (already stripped) line, and derive the parent from it. -/
def read_links_aux (links : List LinkItem) : List PyStr → List LinkItem
  | [] => links
  | line :: rest =>
    let s := pyStrip line
    if s.head? = some '-' then
      match reSearch s with
      | some tu =>
        let indent := s.length - (List.dropWhile pyIsSpace s).length
        let parent := if 0 < indent then (links.head?).map LinkItem.title else none
        read_links_aux (links ++ [⟨tu.1, tu.2, parent⟩]) rest
      | none => read_links_aux links rest
    else read_links_aux links rest

/-- `read_links_from_docs_readme`, with the file contents passed in as
the list of its lines. -/
def read_links_from_docs_readme (docLines : List PyStr) : List LinkItem :=
  read_links_aux [] docLines

/-- One-line parse used to characterise the loop: a line yields a link
exactly when its stripped form starts with the list marker and the
regex matches; the parent field of a produced item is always `none`. -/
def parseLine (line : PyStr) : Option LinkItem :=
  let s := pyStrip line
  if s.head? = some '-' then
    (reSearch s).map (fun tu => ⟨tu.1, tu.2, none⟩)
  else none

/-- A valid link line in the sense of the specification: the first
non-space character is the list marker and the line contains the
`[title](url)` pattern with an http or https URL. -/
def isValidLine (line : PyStr) : Bool :=
  (pyStrip line).head? = some '-' && (reSearch (pyStrip line)).isSome

/-!
## Translator: `translate_text` (lines 91-124)

The backend (`GoogleTranslator.translate`) is a parameter
`tr : PyStr -> Option PyStr`; `none` models a raised exception.  The
second component of each result counts backend invocations (the code
calls `translator.translate(chunk)` once per chunk, whether or not it
raises).
-/

/-- The `try ... except` around a single backend call (lines 119-122):
on failure the original chunk text is used. -/
def tryTranslate (tr : PyStr → Option PyStr) (chunk : PyStr) : PyStr :=
  match tr chunk with
  | some t => t
  | none => chunk

/-- Translate the chunks of one block in order, counting backend
calls (lines 117-122). -/
def translateChunksC (tr : PyStr → Option PyStr) : List PyStr → List PyStr × Nat
  | [] => ([], 0)
  | c :: cs =>
    let r := translateChunksC tr cs
    (tryTranslate tr c :: r.1, r.2 + 1)

/-- The greedy line-packing loop (lines 103-114): `chunks` and
`current` accumulate exactly as the Python lists do, and `curLen`
mirrors `current_len`. -/
def chunkLinesAux (chunks : List (List PyStr)) (current : List PyStr)
    (curLen : Nat) : List PyStr → List (List PyStr)
  | [] => if current = [] then chunks else chunks ++ [current]
  | line :: rest =>
    if curLen + line.length + 1 > 3500 then
      chunkLinesAux (chunks ++ [current]) [line] line.length rest
    else
      chunkLinesAux chunks (current ++ [line]) (curLen + line.length + 1) rest

/-- Chunk the lines of a block (the loop starts with empty `chunks`,
empty `current` and `current_len = 0`; the trailing
`if current: chunks.append(...)` is the `[]` case of the loop). -/
def chunkLines (lines : List PyStr) : List (List PyStr) :=
  chunkLinesAux [] [] 0 lines

/-- Process one paragraph block (lines 98-123): strip it, keep empty
blocks as empty strings, otherwise split into lines, pack into
chunks, translate each chunk with per-chunk fallback, and rejoin with
newlines. -/
def translateBlock (tr : PyStr → Option PyStr) (block : PyStr) : PyStr × Nat :=
  let b := pyStrip block
  if b = [] then ([], 0)
  else
    let chunks := (chunkLines (splitOnChar '\n' b)).map (joinSep ['\n'])
    let r := translateChunksC tr chunks
    (joinSep ['\n'] r.1, r.2)

/-- `translate_text` (lines 91-124): whitespace-only input is
returned unchanged with no backend call; otherwise the text is split
into paragraphs, each paragraph is processed, and the results are
rejoined with the double-newline separator.  The second component is
the total number of backend invocations. -/
def translate_text (tr : PyStr → Option PyStr) (text : PyStr) : PyStr × Nat :=
  if pyStrip text = [] then (text, 0)
  else
    let results := (splitNN text).map (translateBlock tr)
    (joinSep ['\n', '\n'] (results.map Prod.fst), (results.map Prod.snd).sum)

/-- The identity translation backend (every call succeeds and returns
its input unchanged). -/
def idBackend : PyStr → Option PyStr := fun c => some c

/-!
## MarkdownConverter post-processing (lines 76-81)

The `markdownify` call itself is an external library; the claims are
about the post-processing applied to its output `text_md`:
`re.sub(r"\n{3,}", "\n\n", text_md)` followed by `.strip()`.
-/

/-- Run-collapsing scan: `k` counts the pending newline run; on a
non-newline character (or at the end) at most two of the pending
newlines are emitted, exactly as `re.sub(r"\n{3,}", "\n\n", s)`
rewrites every maximal run of three or more newlines to two. -/
def collapseAux : Nat → PyStr → PyStr
  | k, [] => List.replicate (min k 2) '\n'
  | k, c :: rest =>
    if c = '\n' then collapseAux (k + 1) rest
    else List.replicate (min k 2) '\n' ++ c :: collapseAux 0 rest

/-- `re.sub(r"\n{3,}", "\n\n", s)`. -/
def collapseNL (s : PyStr) : PyStr := collapseAux 0 s

/-- The post-processing of `html_to_markdown_text` (lines 80-81),
applied to the intermediate Markdown string produced by the
converter. -/
def html_to_markdown_post (textMd : PyStr) : PyStr :=
  pyStrip (collapseNL textMd)

/-!
## TitleExtractor: `get_title_from_html` (lines 127-135)

The parsed HTML is modelled as a forest of element and text nodes
(the document tree BeautifulSoup produces).  `soup.find(tag)` scans
the descendants in document order (pre-order) and returns the first
element with the given name; `get_text(strip=True)` concatenates the
stripped text segments of the subtree.
-/

/-- An HTML forest: empty, a text node followed by its siblings, or
an element (tag, children, following siblings). -/
inductive Dom where
  | nil : Dom
  | textNode : PyStr → Dom → Dom
  | elemNode : PyStr → Dom → Dom → Dom
deriving DecidableEq

/-- `soup.find(tag)`: first element named `tag` in document order;
returns its children forest. -/
def findTag (tag : PyStr) : Dom → Option Dom
  | .nil => none
  | .textNode _ rest => findTag tag rest
  | .elemNode t cs rest =>
    if t = tag then some cs
    else
      match findTag tag cs with
      | some r => some r
      | none => findTag tag rest

/-- `get_text(strip=True)` over a forest: concatenation of the
stripped text segments in document order. -/
def domTextStrip : Dom → PyStr
  | .nil => []
  | .textNode s rest => pyStrip s ++ domTextStrip rest
  | .elemNode _ cs rest => domTextStrip cs ++ domTextStrip rest

/-- All elements of the forest in document order, as (tag, children)
pairs. -/
def domElems : Dom → List (PyStr × Dom)
  | .nil => []
  | .textNode _ rest => domElems rest
  | .elemNode t cs rest => (t, cs) :: (domElems cs ++ domElems rest)

/-- The `<title>` fallback of `get_title_from_html` (lines 132-135). -/
def titleFallbackOf (d : Dom) : PyStr :=
  match findTag "title".data d with
  | some t => if domTextStrip t = [] then [] else domTextStrip t
  | none => []

/-- `get_title_from_html` (lines 127-135): the first `<h1>` element
is consulted; if it exists and its stripped text is non-empty that
text is returned, otherwise the first `<title>` element is consulted
the same way, otherwise the empty string. -/
def get_title_from_html (d : Dom) : PyStr :=
  match findTag "h1".data d with
  | some h => if domTextStrip h = [] then titleFallbackOf d else domTextStrip h
  | none => titleFallbackOf d

/-- The title extractor as claim C4 words it: the first `<h1>`
element anywhere in the document whose text is non-empty wins; only
when no `<h1>` has non-empty text does the page `<title>` text apply;
empty string when neither exists. -/
def getTitleClaimC4 (d : Dom) : PyStr :=
  match ((domElems d).filter
      (fun p => decide (p.1 = "h1".data) && !(decide (domTextStrip p.2 = [])))).head? with
  | some h => domTextStrip h.2
  | none =>
    match findTag "title".data d with
    | some t => domTextStrip t
    | none => []

/-- The `<title>` part of the amended claim C4, phrased over the
document-order element list. -/
def titleAmendedOf (d : Dom) : PyStr :=
  match ((domElems d).filter (fun p => decide (p.1 = "title".data))).head? with
  | some t => if domTextStrip t.2 = [] then [] else domTextStrip t.2
  | none => []

/-- The amended claim C4, phrased over the document-order element
list: the text of the first `<h1>` element if that text is non-empty,
else the text of the first `<title>` element if non-empty, else the
empty string. -/
def getTitleAmendedC4 (d : Dom) : PyStr :=
  match ((domElems d).filter (fun p => decide (p.1 = "h1".data))).head? with
  | some h => if domTextStrip h.2 = [] then titleAmendedOf d else domTextStrip h.2
  | none => titleAmendedOf d

/-!
## Persister naming: `qiita_id_from_url` (lines 138-139) and the
output file name (lines 150-151).
-/

/-- `qiita_id_from_url`: `url.rstrip("/").split("/")[-1]`. -/
def qiita_id_from_url (url : PyStr) : PyStr :=
  (splitOnChar '/' (rstripSlash url)).getLastD []

/-- The output file name built in `process_link`:
`f"qiita_..."` with the id spliced between the fixed parts. -/
def qiitaFilename (url : PyStr) : PyStr :=
  "qiita_".data ++ qiita_id_from_url url ++ ".md".data

/-- Concrete two-line document exercising the link parser; the second
line carries two spaces of indentation. -/
def docIndent : List PyStr := ["- [a](http://u)".data, "  - [b](http://v)".data]

/-- Concrete one-line document with a single valid link line. -/
def docSingle : List PyStr := ["- [a](http://u)".data]

/-- Concrete document tree whose first h1 element has empty text, a
later h1 has the text Hello, and the title element has the text T. -/
def domFirstEmptyH1 : Dom :=
  Dom.elemNode "h1".data Dom.nil
    (Dom.elemNode "h1".data (Dom.textNode "Hello".data Dom.nil)
      (Dom.elemNode "title".data (Dom.textNode "T".data Dom.nil) Dom.nil))

/-- A single line of 3500 characters: long enough that the packing
condition overflows on it alone. -/
def bigLine : PyStr := List.replicate 3500 'a'

/-- A piece that splitting can recover from a double-newline join:
either empty, or free of double newlines and not ending in a newline. -/
def goodPiece (p : PyStr) : Prop :=
  p = [] ∨ (hasNN p = false ∧ p.getLast? ≠ some '\n')

/-- A chunk or block string that joins cleanly: non-empty, not
starting or ending with a newline, and containing no double newline. -/
def GoodStr (s : PyStr) : Prop :=
  s ≠ [] ∧ s.head? ≠ some '\n' ∧ s.getLast? ≠ some '\n' ∧ hasNN s = false

/-- The property claim C2 asserts of every produced chunk: its joined
character count respects the margin, unless it is a single oversized
line. -/
def chunkOK (g : List PyStr) : Prop :=
  (joinSep ['\n'] g).length ≤ 3500 ∨ ∃ l, g = [l] ∧ 3500 < l.length

/-!
## Helper lemmas about the Python string primitives
-/

theorem dropWhile_idem (p : Char → Bool) (l : PyStr) :
    List.dropWhile p (List.dropWhile p l) = List.dropWhile p l := by
  induction l with
  | nil => simp
  | cons c rest ih =>
    rw [List.dropWhile_cons]
    by_cases h : p c
    · simpa [h] using ih
    · simp [List.dropWhile_cons, h]

theorem dropWhile_suffix_decomp (p : Char → Bool) (l : PyStr) :
    ∃ t, l = t ++ l.dropWhile p := by
  induction l with
  | nil => exact ⟨[], rfl⟩
  | cons c rest ih =>
    by_cases h : p c
    · obtain ⟨t, ht⟩ := ih
      refine ⟨c :: t, ?_⟩
      rw [List.dropWhile_cons, if_pos h]
      simpa using ht
    · exact ⟨[], by rw [List.dropWhile_cons, if_neg h]; rfl⟩

theorem head?_dropWhile_false (p : Char → Bool) (l : PyStr) (c : Char)
    (h : (l.dropWhile p).head? = some c) : p c = false := by
  induction l with
  | nil => simp at h
  | cons a rest ih =>
    rw [List.dropWhile_cons] at h
    by_cases hp : p a
    · rw [if_pos hp] at h
      exact ih h
    · rw [if_neg hp] at h
      simp only [List.head?_cons, Option.some.injEq] at h
      subst h
      exact Bool.eq_false_iff.mpr hp

theorem pyStrip_decomp (s : PyStr) : ∃ t u, s = t ++ pyStrip s ++ u := by
  obtain ⟨t, ht⟩ := dropWhile_suffix_decomp pyIsSpace s
  obtain ⟨a, ha⟩ := dropWhile_suffix_decomp pyIsSpace (s.dropWhile pyIsSpace).reverse
  have hdecomp : s.dropWhile pyIsSpace = pyStrip s ++ a.reverse := by
    have := congrArg List.reverse ha
    simpa [pyStrip, List.reverse_append] using this
  rw [hdecomp] at ht
  exact ⟨t, a.reverse, by rw [List.append_assoc]; exact ht⟩

theorem pyStrip_head?_not_space (s : PyStr) (c : Char)
    (h : (pyStrip s).head? = some c) : pyIsSpace c = false := by
  obtain ⟨a, ha⟩ := dropWhile_suffix_decomp pyIsSpace (s.dropWhile pyIsSpace).reverse
  have hdecomp : s.dropWhile pyIsSpace = pyStrip s ++ a.reverse := by
    have := congrArg List.reverse ha
    simpa [pyStrip, List.reverse_append] using this
  have hh : (s.dropWhile pyIsSpace).head? = some c := by
    rw [hdecomp, List.head?_append, h]
    rfl
  exact head?_dropWhile_false pyIsSpace s c hh

theorem pyStrip_getLast?_not_space (s : PyStr) (c : Char)
    (h : (pyStrip s).getLast? = some c) : pyIsSpace c = false := by
  have h2 : ((s.dropWhile pyIsSpace).reverse.dropWhile pyIsSpace).head? = some c := by
    have := List.getLast?_reverse ((s.dropWhile pyIsSpace).reverse.dropWhile pyIsSpace)
    rw [← this]
    exact h
  exact head?_dropWhile_false pyIsSpace _ c h2

theorem dropWhile_pyStrip (s : PyStr) :
    List.dropWhile pyIsSpace (pyStrip s) = pyStrip s := by
  cases hz : pyStrip s with
  | nil => simp
  | cons c t =>
    have hc : pyIsSpace c = false :=
      pyStrip_head?_not_space s c (by rw [hz]; rfl)
    rw [List.dropWhile_cons, if_neg (by simp [hc])]

theorem pyStrip_idem (s : PyStr) : pyStrip (pyStrip s) = pyStrip s := by
  show ((List.dropWhile pyIsSpace (pyStrip s)).reverse.dropWhile pyIsSpace).reverse = pyStrip s
  rw [dropWhile_pyStrip]
  show (((s.dropWhile pyIsSpace).reverse.dropWhile pyIsSpace).reverse.reverse.dropWhile
    pyIsSpace).reverse = pyStrip s
  rw [List.reverse_reverse, dropWhile_idem]
  rfl

theorem pyIsSpace_nl : pyIsSpace '\n' = true := rfl

theorem pyStrip_head?_ne_nl (s : PyStr) : (pyStrip s).head? ≠ some '\n' := by
  intro h
  have := pyStrip_head?_not_space s '\n' h
  rw [pyIsSpace_nl] at this
  exact absurd this (by simp)

theorem pyStrip_getLast?_ne_nl (s : PyStr) : (pyStrip s).getLast? ≠ some '\n' := by
  intro h
  have := pyStrip_getLast?_not_space s '\n' h
  rw [pyIsSpace_nl] at this
  exact absurd this (by simp)

/-!
## Lemmas about newline runs
-/

theorem hasNN_cons_of (c : Char) (l : PyStr) (h : hasNN l = true) :
    hasNN (c :: l) = true := by
  cases l with
  | nil => simp [hasNN] at h
  | cons d r => rw [hasNN]; rw [h]; simp

theorem hasNN_tail (c : Char) (l : PyStr) (h : hasNN (c :: l) = false) :
    hasNN l = false := by
  cases l with
  | nil => rfl
  | cons d r =>
    rw [hasNN] at h
    exact (Bool.or_eq_false_iff.mp h).2

theorem hasNN_append_right (a b : PyStr) (h : hasNN b = true) :
    hasNN (a ++ b) = true := by
  induction a with
  | nil => simpa using h
  | cons c a' ih => exact hasNN_cons_of c (a' ++ b) ih

theorem hasNN_append_left (a b : PyStr) (h : hasNN a = true) :
    hasNN (a ++ b) = true := by
  induction a with
  | nil => simp [hasNN] at h
  | cons c a' ih =>
    cases a' with
    | nil => simp [hasNN] at h
    | cons d r =>
      rw [hasNN] at h
      rcases Bool.or_eq_true_iff.mp h with h1 | h2
      · show hasNN (c :: d :: (r ++ b)) = true
        rw [hasNN, h1]; simp
      · exact hasNN_cons_of c ((d :: r) ++ b) (ih h2)

theorem hasNN_infix_false (t a b : PyStr) (h : hasNN (a ++ t ++ b) = false) :
    hasNN t = false := by
  by_contra hc
  have ht : hasNN t = true := by
    cases hv : hasNN t with
    | false => exact absurd hv hc
    | true => rfl
  have : hasNN (a ++ t ++ b) = true := by
    rw [List.append_assoc]
    exact hasNN_append_right a (t ++ b) (hasNN_append_left t b ht)
  rw [h] at this
  exact absurd this (by simp)

theorem hasNN_pyStrip (s : PyStr) (h : hasNN s = false) :
    hasNN (pyStrip s) = false := by
  obtain ⟨t, u, hd⟩ := pyStrip_decomp s
  rw [hd] at h
  exact hasNN_infix_false (pyStrip s) t u h

theorem hasNN_of_not_mem : ∀ l : PyStr, '\n' ∉ l → hasNN l = false
  | [], _ => rfl
  | [_], _ => rfl
  | c :: d :: r, h => by
    rw [hasNN]
    have hc : c ≠ '\n' := fun hh => h (by rw [hh]; exact List.mem_cons_self _ _)
    have hr : '\n' ∉ d :: r := fun hh => h (List.mem_cons_of_mem _ hh)
    rw [hasNN_of_not_mem (d :: r) hr]
    simp [hc]

theorem hasTriple_cons_of (c : Char) (l : PyStr) (h : hasTriple l = true) :
    hasTriple (c :: l) = true := by
  match l with
  | [] => simp [hasTriple] at h
  | [_] => simp [hasTriple] at h
  | x :: y :: r => rw [hasTriple, h]; simp

theorem hasTriple_append_right (a b : PyStr) (h : hasTriple b = true) :
    hasTriple (a ++ b) = true := by
  induction a with
  | nil => simpa using h
  | cons c a' ih => exact hasTriple_cons_of c (a' ++ b) ih

theorem hasTriple_append_left (a b : PyStr) (h : hasTriple a = true) :
    hasTriple (a ++ b) = true := by
  induction a with
  | nil => simp [hasTriple] at h
  | cons c a' ih =>
    match a', ih with
    | [], _ => simp [hasTriple] at h
    | [_], _ => simp [hasTriple] at h
    | x :: y :: r, ih =>
      rw [hasTriple] at h
      rcases Bool.or_eq_true_iff.mp h with h1 | h2
      · show hasTriple (c :: x :: y :: (r ++ b)) = true
        rw [hasTriple, h1]; simp
      · exact hasTriple_cons_of c ((x :: y :: r) ++ b) (ih h2)

theorem hasTriple_infix_false (t a b : PyStr)
    (h : hasTriple (a ++ t ++ b) = false) : hasTriple t = false := by
  by_contra hc
  have ht : hasTriple t = true := by
    cases hv : hasTriple t with
    | false => exact absurd hv hc
    | true => rfl
  have : hasTriple (a ++ t ++ b) = true := by
    rw [List.append_assoc]
    exact hasTriple_append_right a (t ++ b) (hasTriple_append_left t b ht)
  rw [h] at this
  exact absurd this (by simp)

theorem hasTriple_pyStrip (s : PyStr) (h : hasTriple s = false) :
    hasTriple (pyStrip s) = false := by
  obtain ⟨t, u, hd⟩ := pyStrip_decomp s
  rw [hd] at h
  exact hasTriple_infix_false (pyStrip s) t u h

/-!
## Lemmas about splitting and joining
-/

theorem splitOnChar_ne_nil (sep : Char) (s : PyStr) : splitOnChar sep s ≠ [] := by
  cases s with
  | nil => simp [splitOnChar]
  | cons c rest =>
    rw [splitOnChar]
    by_cases h : c = sep
    · simp [h]
    · rw [if_neg h]
      cases hs : splitOnChar sep rest <;> simp

theorem not_mem_of_mem_splitOnChar (sep : Char) :
    ∀ (s p : PyStr), p ∈ splitOnChar sep s → sep ∉ p
  | [], p, hp => by
    simp [splitOnChar] at hp
    simp [hp]
  | c :: rest, p, hp => by
    rw [splitOnChar] at hp
    by_cases h : c = sep
    · rw [if_pos h] at hp
      rcases List.mem_cons.mp hp with h1 | h2
      · simp [h1]
      · exact not_mem_of_mem_splitOnChar sep rest p h2
    · rw [if_neg h] at hp
      cases hs : splitOnChar sep rest with
      | nil => exact absurd hs (splitOnChar_ne_nil sep rest)
      | cons q qs =>
        rw [hs] at hp
        rcases List.mem_cons.mp hp with h1 | h2
        · subst h1
          intro hm
          rcases List.mem_cons.mp hm with h3 | h4
          · exact h h3.symm
          · exact not_mem_of_mem_splitOnChar sep rest q (by rw [hs]; exact List.mem_cons_self _ _) h4
        · exact not_mem_of_mem_splitOnChar sep rest p (by rw [hs]; exact List.mem_cons_of_mem _ h2)

theorem splitOnChar_of_not_mem (sep : Char) :
    ∀ s : PyStr, sep ∉ s → splitOnChar sep s = [s]
  | [], _ => rfl
  | c :: rest, h => by
    rw [splitOnChar, if_neg (fun hh => h (by rw [hh]; exact List.mem_cons_self _ _)),
      splitOnChar_of_not_mem sep rest (fun hh => h (List.mem_cons_of_mem _ hh))]

theorem splitOnChar_append_sep (sep : Char) :
    ∀ u v : PyStr, splitOnChar sep (u ++ sep :: v) = splitOnChar sep u ++ splitOnChar sep v
  | [], v => by
    show splitOnChar sep (sep :: v) = [[]] ++ splitOnChar sep v
    rw [splitOnChar, if_pos rfl]
    rfl
  | c :: u', v => by
    show splitOnChar sep (c :: (u' ++ sep :: v)) = _
    rw [splitOnChar]
    by_cases h : c = sep
    · rw [if_pos h, splitOnChar_append_sep sep u' v]
      show _ = splitOnChar sep (c :: u') ++ _
      rw [splitOnChar, if_pos h]
      rfl
    · rw [if_neg h, splitOnChar_append_sep sep u' v]
      cases hs : splitOnChar sep u' with
      | nil => exact absurd hs (splitOnChar_ne_nil sep u')
      | cons p ps =>
        show (c :: p) :: (ps ++ splitOnChar sep v) = splitOnChar sep (c :: u') ++ splitOnChar sep v
        rw [splitOnChar, if_neg h, hs]
        rfl

theorem splitNN_ne_nil (s : PyStr) : splitNN s ≠ [] := by
  match s with
  | [] => simp [splitNN]
  | [c] => simp [splitNN]
  | c :: d :: rest =>
    rw [splitNN]
    by_cases h : c = '\n' ∧ d = '\n'
    · simp [h]
    · rw [if_neg h]
      cases hs : splitNN (d :: rest) <;> simp

theorem splitNN_head_piece (s q : PyStr) (qs : List PyStr)
    (h : splitNN s = q :: qs) : q = [] ∨ q.head? = s.head? := by
  match s with
  | [] =>
    rw [splitNN] at h
    injection h with h1 h2
    exact Or.inl h1.symm
  | [c] =>
    rw [splitNN] at h
    injection h with h1 h2
    right
    rw [← h1]
  | c :: d :: rest =>
    rw [splitNN] at h
    by_cases hc : c = '\n' ∧ d = '\n'
    · rw [if_pos hc] at h
      injection h with h1 h2
      exact Or.inl h1.symm
    · rw [if_neg hc] at h
      cases hs : splitNN (d :: rest) with
      | nil => exact absurd hs (splitNN_ne_nil (d :: rest))
      | cons p ps =>
        rw [hs] at h
        injection h with h1 h2
        right
        rw [← h1]
        rfl

theorem splitNN_pieces_hasNN : ∀ (s p : PyStr), p ∈ splitNN s → hasNN p = false
  | [], p, hp => by
    simp [splitNN] at hp
    simp [hp, hasNN]
  | [c], p, hp => by
    simp [splitNN] at hp
    simp [hp, hasNN]
  | c :: d :: rest, p, hp => by
    rw [splitNN] at hp
    by_cases hc : c = '\n' ∧ d = '\n'
    · rw [if_pos hc] at hp
      rcases List.mem_cons.mp hp with h1 | h2
      · simp [h1, hasNN]
      · exact splitNN_pieces_hasNN rest p h2
    · rw [if_neg hc] at hp
      cases hs : splitNN (d :: rest) with
      | nil => exact absurd hs (splitNN_ne_nil (d :: rest))
      | cons q qs =>
        rw [hs] at hp
        rcases List.mem_cons.mp hp with h1 | h2
        · subst h1
          have hq : hasNN q = false :=
            splitNN_pieces_hasNN (d :: rest) q (by rw [hs]; exact List.mem_cons_self _ _)
          rcases splitNN_head_piece (d :: rest) q qs hs with hq0 | hq0
          · subst hq0
            rfl
          · cases q with
            | nil => rfl
            | cons e q' =>
              have hed : e = d := by simpa using hq0
              rw [hasNN, hq]
              by_cases h1 : c = '\n'
              · have h2 : ¬ e = '\n' := fun hh => hc ⟨h1, by rw [← hed]; exact hh⟩
                simp [h2]
              · simp [h1]
        · exact splitNN_pieces_hasNN (d :: rest) p (by rw [hs]; exact List.mem_cons_of_mem _ h2)


theorem splitNN_single : ∀ p : PyStr, hasNN p = false → splitNN p = [p]
  | [], _ => rfl
  | [c], _ => rfl
  | c :: d :: rest, h => by
    have hc : ¬(c = '\n' ∧ d = '\n') := by
      intro hh
      rw [hasNN, hh.1, hh.2] at h
      simp at h
    rw [splitNN, if_neg hc, splitNN_single (d :: rest) (hasNN_tail c (d :: rest) h)]

theorem splitNN_append_sep (p : PyStr) (r : PyStr) (hg : goodPiece p) :
    splitNN (p ++ '\n' :: '\n' :: r) = p :: splitNN r := by
  induction p with
  | nil =>
    show splitNN ('\n' :: '\n' :: r) = [] :: splitNN r
    rw [splitNN, if_pos ⟨rfl, rfl⟩]
  | cons c p' ih =>
    rcases hg with hg | ⟨hnn, hlast⟩
    · exact absurd hg (by simp)
    cases p' with
    | nil =>
      have hc : ¬ c = '\n' := by
        intro hh
        exact hlast (by rw [hh]; rfl)
      show splitNN (c :: '\n' :: '\n' :: r) = [c] :: splitNN r
      rw [splitNN, if_neg (by intro hh; exact hc hh.1)]
      rw [show ([] : PyStr) ++ '\n' :: '\n' :: r = '\n' :: '\n' :: r from rfl] at ih
      rw [ih (Or.inl rfl)]
    | cons e p'' =>
      have hce : ¬(c = '\n' ∧ e = '\n') := by
        intro hh
        rw [hasNN, hh.1, hh.2] at hnn
        simp at hnn
      show splitNN (c :: ((e :: p'') ++ '\n' :: '\n' :: r)) = (c :: e :: p'') :: splitNN r
      rw [List.cons_append, splitNN, if_neg (by
        intro hh
        exact hce ⟨hh.1, hh.2⟩)]
      have hgood' : goodPiece (e :: p'') := by
        right
        constructor
        · exact hasNN_tail c (e :: p'') hnn
        · intro hh
          apply hlast
          rw [List.getLast?_cons_cons]
          exact hh
      have ih' := ih hgood'
      rw [List.cons_append] at ih'
      rw [ih']

theorem joinSep_cons_cons (sep p q : PyStr) (ps : List PyStr) :
    joinSep sep (p :: q :: ps) = p ++ sep ++ joinSep sep (q :: ps) := rfl

theorem splitNN_joinSep : ∀ pieces : List PyStr, pieces ≠ [] →
    (∀ p ∈ pieces, goodPiece p) → splitNN (joinSep ['\n', '\n'] pieces) = pieces
  | [], hne, _ => absurd rfl hne
  | [p], _, hg => by
    show splitNN p = [p]
    rcases hg p (List.mem_cons_self _ _) with h | ⟨hnn, _⟩
    · subst h
      rfl
    · exact splitNN_single p hnn
  | p :: q :: ps, _, hg => by
    rw [joinSep_cons_cons]
    have : p ++ ['\n', '\n'] ++ joinSep ['\n', '\n'] (q :: ps)
        = p ++ '\n' :: '\n' :: joinSep ['\n', '\n'] (q :: ps) := by
      rw [List.append_assoc]
      rfl
    rw [this, splitNN_append_sep p _ (hg p (List.mem_cons_self _ _)),
      splitNN_joinSep (q :: ps) (by simp) (fun x hx => hg x (List.mem_cons_of_mem _ hx))]

theorem joinSep_append_single (sep x : PyStr) : ∀ g : List PyStr,
    joinSep sep (g ++ [x]) = if g = [] then x else joinSep sep g ++ sep ++ x
  | [] => rfl
  | [p] => by
    rw [if_neg (by simp)]
    rfl
  | p :: q :: ps => by
    rw [if_neg (by simp)]
    show joinSep sep (p :: ((q :: ps) ++ [x])) = _
    rw [List.cons_append, joinSep_cons_cons, joinSep_cons_cons]
    rw [show q :: (ps ++ [x]) = (q :: ps) ++ [x] from rfl,
      joinSep_append_single sep x (q :: ps), if_neg (by simp)]
    simp [List.append_assoc]


theorem hasNN_append : ∀ a b : PyStr, hasNN a = false → hasNN b = false →
    ¬(a.getLast? = some '\n' ∧ b.head? = some '\n') → hasNN (a ++ b) = false
  | [], b, _, hb, _ => hb
  | [x], b, _, hb, hbd => by
    cases b with
    | nil => rfl
    | cons b0 b' =>
      show hasNN (x :: b0 :: b') = false
      rw [hasNN, hb]
      have : ¬(x = '\n' ∧ b0 = '\n') := by
        intro hh
        exact hbd ⟨by rw [hh.1]; rfl, by rw [hh.2]; rfl⟩
      by_cases h1 : x = '\n'
      · have h2 : ¬ b0 = '\n' := fun hh => this ⟨h1, hh⟩
        simp [h2]
      · simp [h1]
  | x :: y :: a', b, ha, hb, hbd => by
    show hasNN (x :: y :: (a' ++ b)) = false
    rw [hasNN]
    rw [hasNN] at ha
    rcases Bool.or_eq_false_iff.mp ha with ⟨h1, h2⟩
    have htl : hasNN ((y :: a') ++ b) = false := by
      apply hasNN_append (y :: a') b h2 hb
      intro hh
      apply hbd
      refine ⟨?_, hh.2⟩
      rw [List.getLast?_cons_cons]
      exact hh.1
    rw [List.cons_append] at htl
    rw [htl, h1]
    rfl

theorem goodStr_of_no_nl (l : PyStr) (h0 : l ≠ []) (h : '\n' ∉ l) : GoodStr l := by
  refine ⟨h0, ?_, ?_, hasNN_of_not_mem l h⟩
  · intro hh
    exact h (List.mem_of_mem_head? (by rw [hh]; exact Option.mem_def.mpr rfl))
  · intro hh
    exact h (List.mem_of_mem_getLast? hh)

theorem joinSep_nl_good : ∀ ss : List PyStr, ss ≠ [] →
    (∀ s ∈ ss, GoodStr s) → GoodStr (joinSep ['\n'] ss)
  | [], hne, _ => absurd rfl hne
  | [s], _, hg => hg s (List.mem_cons_self _ _)
  | s :: q :: ps, _, hg => by
    have hs : GoodStr s := hg s (List.mem_cons_self _ _)
    have hJ : GoodStr (joinSep ['\n'] (q :: ps)) :=
      joinSep_nl_good (q :: ps) (by simp) (fun x hx => hg x (List.mem_cons_of_mem _ hx))
    rw [joinSep_cons_cons]
    set J := joinSep ['\n'] (q :: ps) with hJdef
    have hJne : J ≠ [] := hJ.1
    have hform : s ++ ['\n'] ++ J = s ++ '\n' :: J := by
      rw [List.append_assoc]
      rfl
    rw [hform]
    refine ⟨by simp [hs.1], ?_, ?_, ?_⟩
    · rw [List.head?_append]
      cases hh : s.head? with
      | none => exact absurd (List.head?_eq_none_iff.mp hh) hs.1
      | some c =>
        intro hcon
        apply hs.2.1
        rw [hh]
        simpa [hh] using hcon
    · rw [List.getLast?_append]
      have : ('\n' :: J).getLast? = J.getLast? := by
        cases hJe : J with
        | nil => exact absurd hJe hJne
        | cons j0 J' => rw [List.getLast?_cons_cons]
      rw [this]
      cases hg2 : J.getLast? with
      | none => exact absurd (List.getLast?_eq_none_iff.mp hg2) hJne
      | some c =>
        intro hcon
        apply hJ.2.2.1
        rw [hg2]
        simpa [hg2] using hcon
    · apply hasNN_append s ('\n' :: J) hs.2.2.2
      · show hasNN ('\n' :: J) = false
        cases hJe : J with
        | nil => rfl
        | cons j0 J' =>
          rw [hasNN]
          have hj0 : ¬ j0 = '\n' := by
            intro hh
            apply hJ.2.1
            rw [hJe, hh]
            rfl
          have : hasNN (j0 :: J') = false := by
            rw [← hJe]
            exact hJ.2.2.2
          rw [this]
          simp [hj0]
      · intro hh
        have := hs.2.2.1
        exact this hh.1

theorem splitOnChar_nl_pieces : ∀ s : PyStr, hasNN s = false →
    s.getLast? ≠ some '\n' → ∀ p ps, splitOnChar '\n' s = p :: ps →
    (∀ l ∈ ps, l ≠ []) ∧ (s ≠ [] → s.head? ≠ some '\n' → p ≠ [])
  | [], _, _, p, ps, h => by
    rw [splitOnChar] at h
    injection h with h1 h2
    subst h1; subst h2
    exact ⟨by simp, fun hcon _ => absurd rfl hcon⟩
  | c :: rest, hnn, hlast, p, ps, h => by
    rw [splitOnChar] at h
    by_cases hc : c = '\n'
    · rw [if_pos hc] at h
      injection h with h1 h2
      subst h1; subst h2
      constructor
      · cases rest with
        | nil =>
          subst hc
          simp at hlast
        | cons d rest' =>
          cases hs : splitOnChar '\n' (d :: rest') with
          | nil => exact absurd hs (splitOnChar_ne_nil '\n' (d :: rest'))
          | cons q qs =>
            have hd : ¬ d = '\n' := by
              intro hd
              rw [hasNN, hc, hd] at hnn
              simp at hnn
            have hrec := splitOnChar_nl_pieces (d :: rest')
              (hasNN_tail c (d :: rest') hnn)
              (by rw [← List.getLast?_cons_cons (a := c)]; exact hlast)
              q qs hs
            intro l hl
            rcases List.mem_cons.mp hl with h1 | h2
            · subst h1
              exact hrec.2 (by simp) (by simp [hd])
            · exact hrec.1 l h2
      · intro _ hhead
        exact absurd (by rw [hc]; rfl) hhead
    · rw [if_neg hc] at h
      cases hs : splitOnChar '\n' rest with
      | nil => exact absurd hs (splitOnChar_ne_nil '\n' rest)
      | cons q qs =>
        rw [hs] at h
        injection h with h1 h2
        subst h1; subst h2
        constructor
        · cases rest with
          | nil =>
            rw [splitOnChar] at hs
            injection hs with h3 h4
            subst h4
            simp
          | cons d rest' =>
            have hrec := splitOnChar_nl_pieces (d :: rest')
              (hasNN_tail c (d :: rest') hnn)
              (by rw [← List.getLast?_cons_cons (a := c)]; exact hlast)
              q qs hs
            exact hrec.1
        · intro _ _
          simp

theorem splitOnChar_nl_all_good (s : PyStr) (hne : s ≠ [])
    (hh : s.head? ≠ some '\n') (hlast : s.getLast? ≠ some '\n')
    (hnn : hasNN s = false) :
    ∀ l ∈ splitOnChar '\n' s, l ≠ [] ∧ '\n' ∉ l := by
  intro l hl
  refine ⟨?_, not_mem_of_mem_splitOnChar '\n' s l hl⟩
  cases hs : splitOnChar '\n' s with
  | nil => exact absurd hs (splitOnChar_ne_nil '\n' s)
  | cons p ps =>
    have hrec := splitOnChar_nl_pieces s hnn hlast p ps hs
    rw [hs] at hl
    rcases List.mem_cons.mp hl with h1 | h2
    · subst h1
      exact hrec.2 hne hh
    · exact hrec.1 l h2

/-!
## Lemmas about the greedy chunking loop
-/

theorem chunkLinesAux_acc : ∀ (ls : List PyStr) (chunks : List (List PyStr))
    (cur : List PyStr) (n : Nat),
    chunkLinesAux chunks cur n ls = chunks ++ chunkLinesAux [] cur n ls
  | [], chunks, cur, n => by
    rw [chunkLinesAux, chunkLinesAux]
    by_cases h : cur = []
    · rw [if_pos h, if_pos h]
      simp
    · rw [if_neg h, if_neg h]
      rfl
  | line :: rest, chunks, cur, n => by
    rw [chunkLinesAux, chunkLinesAux]
    by_cases h : n + line.length + 1 > 3500
    · rw [if_pos h, if_pos h]
      rw [chunkLinesAux_acc rest (chunks ++ [cur]),
        chunkLinesAux_acc rest ([] ++ [cur])]
      simp
    · rw [if_neg h, if_neg h]
      exact chunkLinesAux_acc rest chunks (cur ++ [line]) (n + line.length + 1)

theorem chunkLinesAux_ne_nil : ∀ (ls : List PyStr) (chunks : List (List PyStr))
    (cur : List PyStr) (n : Nat), cur ≠ [] → chunkLinesAux chunks cur n ls ≠ []
  | [], chunks, cur, n, hcur => by
    rw [chunkLinesAux, if_neg hcur]
    simp
  | line :: rest, chunks, cur, n, hcur => by
    rw [chunkLinesAux]
    by_cases h : n + line.length + 1 > 3500
    · rw [if_pos h]
      exact chunkLinesAux_ne_nil rest (chunks ++ [cur]) [line] line.length (by simp)
    · rw [if_neg h]
      exact chunkLinesAux_ne_nil rest chunks (cur ++ [line]) _ (by simp)

theorem chunkLinesAux_mem : ∀ (ls : List PyStr) (chunks : List (List PyStr))
    (cur : List PyStr) (n : Nat) (g : List PyStr), cur ≠ [] →
    g ∈ chunkLinesAux chunks cur n ls →
    g ∈ chunks ∨ (g ≠ [] ∧ ∀ x ∈ g, x ∈ cur ∨ x ∈ ls)
  | [], chunks, cur, n, g, hcur, hg => by
    rw [chunkLinesAux, if_neg hcur] at hg
    rcases List.mem_append.mp hg with h1 | h2
    · exact Or.inl h1
    · right
      have : g = cur := by simpa using h2
      subst this
      exact ⟨hcur, fun x hx => Or.inl hx⟩
  | line :: rest, chunks, cur, n, g, hcur, hg => by
    rw [chunkLinesAux] at hg
    by_cases h : n + line.length + 1 > 3500
    · rw [if_pos h] at hg
      rcases chunkLinesAux_mem rest (chunks ++ [cur]) [line] line.length g
        (by simp) hg with h1 | ⟨hne, hmem⟩
      · rcases List.mem_append.mp h1 with h2 | h3
        · exact Or.inl h2
        · right
          have : g = cur := by simpa using h3
          subst this
          exact ⟨hcur, fun x hx => Or.inl hx⟩
      · right
        refine ⟨hne, fun x hx => ?_⟩
        rcases hmem x hx with h2 | h3
        · have : x = line := by simpa using h2
          subst this
          exact Or.inr (List.mem_cons_self _ _)
        · exact Or.inr (List.mem_cons_of_mem _ h3)
    · rw [if_neg h] at hg
      rcases chunkLinesAux_mem rest chunks (cur ++ [line]) (n + line.length + 1) g
        (by simp) hg with h1 | ⟨hne, hmem⟩
      · exact Or.inl h1
      · right
        refine ⟨hne, fun x hx => ?_⟩
        rcases hmem x hx with h2 | h3
        · rcases List.mem_append.mp h2 with h4 | h5
          · exact Or.inl h4
          · have : x = line := by simpa using h5
            subst this
            exact Or.inr (List.mem_cons_self _ _)
        · exact Or.inr (List.mem_cons_of_mem _ h3)

/-- Shape of the chunking result on a non-empty line list: either all
chunks are non-empty groups of input lines, or there is a single
leading empty chunk (emitted when the very first line already
overflows) followed by such groups. -/
theorem chunkLines_shape (l : PyStr) (ls : List PyStr) :
    (∃ gs, chunkLines (l :: ls) = [] :: gs ∧ gs ≠ [] ∧
      ∀ g ∈ gs, g ≠ [] ∧ ∀ x ∈ g, x ∈ l :: ls) ∨
    (chunkLines (l :: ls) ≠ [] ∧
      ∀ g ∈ chunkLines (l :: ls), g ≠ [] ∧ ∀ x ∈ g, x ∈ l :: ls) := by
  rw [chunkLines, chunkLinesAux]
  by_cases h : 0 + l.length + 1 > 3500
  · rw [if_pos h]
    left
    refine ⟨chunkLinesAux [] [l] l.length ls, ?_, ?_, ?_⟩
    · rw [chunkLinesAux_acc ls ([] ++ [[]])]
      rfl
    · exact chunkLinesAux_ne_nil ls [] [l] l.length (by simp)
    · intro g hg
      rcases chunkLinesAux_mem ls [] [l] l.length g (by simp) hg with h1 | ⟨hne, hmem⟩
      · simp at h1
      · refine ⟨hne, fun x hx => ?_⟩
        rcases hmem x hx with h2 | h3
        · have : x = l := by simpa using h2
          subst this
          exact List.mem_cons_self _ _
        · exact List.mem_cons_of_mem _ h3
  · rw [if_neg h]
    right
    constructor
    · exact chunkLinesAux_ne_nil ls [] ([] ++ [l]) _ (by simp)
    · intro g hg
      rcases chunkLinesAux_mem ls [] ([] ++ [l]) (0 + l.length + 1) g
        (by simp) hg with h1 | ⟨hne, hmem⟩
      · simp at h1
      · refine ⟨hne, fun x hx => ?_⟩
        rcases hmem x hx with h2 | h3
        · have : x = l := by simpa using h2
          subst this
          exact List.mem_cons_self _ _
        · exact List.mem_cons_of_mem _ h3


theorem chunkLinesAux_ok : ∀ (ls : List PyStr) (chunks : List (List PyStr))
    (cur : List PyStr) (n : Nat),
    (∀ g ∈ chunks, chunkOK g) →
    (joinSep ['\n'] cur).length ≤ n →
    (n ≤ 3500 ∨ ∃ l, cur = [l] ∧ 3500 < l.length) →
    ∀ g ∈ chunkLinesAux chunks cur n ls, chunkOK g
  | [], chunks, cur, n, hch, hlen, hcur, g, hg => by
    rw [chunkLinesAux] at hg
    by_cases h : cur = []
    · rw [if_pos h] at hg
      exact hch g hg
    · rw [if_neg h] at hg
      rcases List.mem_append.mp hg with h1 | h2
      · exact hch g h1
      · have : g = cur := by simpa using h2
        subst this
        rcases hcur with h3 | h3
        · exact Or.inl (le_trans hlen h3)
        · exact Or.inr h3
  | line :: rest, chunks, cur, n, hch, hlen, hcur, g, hg => by
    rw [chunkLinesAux] at hg
    by_cases h : n + line.length + 1 > 3500
    · rw [if_pos h] at hg
      refine chunkLinesAux_ok rest (chunks ++ [cur]) [line] line.length ?_ ?_ ?_ g hg
      · intro g' hg'
        rcases List.mem_append.mp hg' with h1 | h2
        · exact hch g' h1
        · have : g' = cur := by simpa using h2
          subst this
          rcases hcur with h3 | h3
          · exact Or.inl (le_trans hlen h3)
          · exact Or.inr h3
      · show (line : PyStr).length ≤ line.length
        exact le_refl _
      · rcases le_or_lt line.length 3500 with h3 | h3
        · exact Or.inl h3
        · exact Or.inr ⟨line, rfl, h3⟩
    · rw [if_neg h] at hg
      have hle : n + line.length + 1 ≤ 3500 := by omega
      refine chunkLinesAux_ok rest chunks (cur ++ [line]) (n + line.length + 1)
        hch ?_ (Or.inl hle) g hg
      rw [joinSep_append_single]
      by_cases hc : cur = []
      · rw [if_pos hc]
        omega
      · rw [if_neg hc]
        have : (joinSep ['\n'] cur ++ ['\n'] ++ line).length
            = (joinSep ['\n'] cur).length + 1 + line.length := by
          simp
          omega
        rw [this]
        omega

theorem chunkLinesAux_oversized_self : ∀ (rest : List PyStr)
    (chunks : List (List PyStr)) (l : PyStr), 3500 < l.length →
    [l] ∈ chunkLinesAux chunks [l] l.length rest
  | [], chunks, l, _ => by
    rw [chunkLinesAux, if_neg (by simp)]
    simp
  | r :: rs, chunks, l, hl => by
    rw [chunkLinesAux, if_pos (by omega)]
    rw [chunkLinesAux_acc rs (chunks ++ [[l]])]
    apply List.mem_append.mpr
    left
    simp

theorem chunkLinesAux_oversized_mem : ∀ (ls : List PyStr)
    (chunks : List (List PyStr)) (cur : List PyStr) (n : Nat) (l : PyStr),
    l ∈ ls → 3500 < l.length → [l] ∈ chunkLinesAux chunks cur n ls
  | [], _, _, _, l, hl, _ => absurd hl (List.not_mem_nil l)
  | r :: rs, chunks, cur, n, l, hl, hlen => by
    rcases List.mem_cons.mp hl with h1 | h2
    · subst h1
      rw [chunkLinesAux, if_pos (by omega)]
      exact chunkLinesAux_oversized_self rs (chunks ++ [cur]) l hlen
    · rw [chunkLinesAux]
      by_cases h : n + r.length + 1 > 3500
      · rw [if_pos h]
        exact chunkLinesAux_oversized_mem rs (chunks ++ [cur]) [r] r.length l h2 hlen
      · rw [if_neg h]
        exact chunkLinesAux_oversized_mem rs chunks (cur ++ [r]) _ l h2 hlen

theorem chunkLinesAux_big_head : ∀ (ls : List PyStr) (l : PyStr),
    3500 ≤ l.length → (chunkLinesAux [] [l] l.length ls).head? = some [l]
  | [], l, _ => by
    rw [chunkLinesAux, if_neg (by simp)]
    rfl
  | r :: rs, l, hl => by
    rw [chunkLinesAux, if_pos (by omega)]
    rw [chunkLinesAux_acc rs ([] ++ [[l]])]
    rfl

/-!
## Lemmas about the translator
-/

theorem tryTranslate_eq_getD (tr : PyStr → Option PyStr) (c : PyStr) :
    tryTranslate tr c = (tr c).getD c := by
  cases h : tr c <;> simp [tryTranslate, h]

theorem translateChunksC_eq (tr : PyStr → Option PyStr) :
    ∀ cs : List PyStr, translateChunksC tr cs = (cs.map (tryTranslate tr), cs.length)
  | [] => rfl
  | c :: cs => by
    rw [translateChunksC, translateChunksC_eq tr cs]
    rfl

theorem map_tryTranslate_id (X : List PyStr) :
    X.map (tryTranslate idBackend) = X := by
  show X.map (fun c => c) = X
  simp

theorem translateChunksC_id (cs : List PyStr) :
    translateChunksC idBackend cs = (cs, cs.length) := by
  rw [translateChunksC_eq, map_tryTranslate_id]

theorem translateBlock_val (tr : PyStr → Option PyStr) (b : PyStr)
    (hs : pyStrip b ≠ []) :
    translateBlock tr b =
      (joinSep ['\n'] (((chunkLines (splitOnChar '\n' (pyStrip b))).map
          (joinSep ['\n'])).map (tryTranslate tr)),
       ((chunkLines (splitOnChar '\n' (pyStrip b))).map (joinSep ['\n'])).length) := by
  simp only [translateBlock]
  rw [if_neg hs, translateChunksC_eq]

theorem translateBlock_id_good (b : PyStr) (hbn : hasNN b = false) :
    goodPiece (translateBlock idBackend b).1 := by
  by_cases hs : pyStrip b = []
  · have : translateBlock idBackend b = ([], 0) := by
      simp only [translateBlock]
      rw [if_pos hs]
    rw [this]
    exact Or.inl rfl
  · have hval : (translateBlock idBackend b).1 =
        joinSep ['\n'] ((chunkLines (splitOnChar '\n' (pyStrip b))).map (joinSep ['\n'])) := by
      rw [translateBlock_val idBackend b hs]
      show joinSep ['\n'] (((chunkLines (splitOnChar '\n' (pyStrip b))).map
        (joinSep ['\n'])).map (tryTranslate idBackend)) = _
      rw [map_tryTranslate_id]
    rw [hval]
    have hh := pyStrip_head?_ne_nl b
    have hlast := pyStrip_getLast?_ne_nl b
    have hnn := hasNN_pyStrip b hbn
    have hlines := splitOnChar_nl_all_good (pyStrip b) hs hh hlast hnn
    cases hsplit : splitOnChar '\n' (pyStrip b) with
    | nil => exact absurd hsplit (splitOnChar_ne_nil '\n' (pyStrip b))
    | cons l ls =>
      rw [hsplit] at hlines
      have hlineGood : ∀ g : List PyStr, (∀ x ∈ g, x ∈ l :: ls) → g ≠ [] →
          GoodStr (joinSep ['\n'] g) := by
        intro g hmem hgne
        apply joinSep_nl_good g hgne
        intro x hx
        have := hlines x (hmem x hx)
        exact goodStr_of_no_nl x this.1 this.2
      rcases chunkLines_shape l ls with ⟨gs, hform, hgsne, hgs⟩ | ⟨hne, hgood⟩
      · rw [hform, List.map_cons,
          show joinSep ['\n'] ([] : List PyStr) = [] from rfl]
        cases hgs2 : gs.map (joinSep ['\n']) with
        | nil => exact absurd (List.map_eq_nil_iff.mp hgs2) hgsne
        | cons q qs =>
          have hq : GoodStr (joinSep ['\n'] (q :: qs)) := by
            apply joinSep_nl_good _ (by simp)
            intro x hx
            rw [← hgs2] at hx
            rcases List.mem_map.mp hx with ⟨g, hg, hgx⟩
            rw [← hgx]
            exact hlineGood g (hgs g hg).2 (hgs g hg).1
          rw [show joinSep ['\n'] ([] :: q :: qs) = '\n' :: joinSep ['\n'] (q :: qs) from
              by rw [joinSep_cons_cons]; rfl]
          right
          constructor
          · cases hJ : joinSep ['\n'] (q :: qs) with
            | nil => exact absurd hJ hq.1
            | cons j0 J' =>
              rw [hasNN]
              have hj0 : ¬ j0 = '\n' := by
                intro hh
                apply hq.2.1
                rw [hJ, hh]
                rfl
              have hNN : hasNN (j0 :: J') = false := by
                rw [← hJ]
                exact hq.2.2.2
              rw [hNN]
              simp [hj0]
          · cases hJ : joinSep ['\n'] (q :: qs) with
            | nil => exact absurd hJ hq.1
            | cons j0 J' =>
              rw [List.getLast?_cons_cons, ← hJ]
              exact hq.2.2.1
      · have hgoodstr : GoodStr (joinSep ['\n']
            ((chunkLines (l :: ls)).map (joinSep ['\n']))) := by
          apply joinSep_nl_good
          · intro hcon
            exact hne (List.map_eq_nil_iff.mp hcon)
          · intro x hx
            rcases List.mem_map.mp hx with ⟨g, hg, hgx⟩
            rw [← hgx]
            exact hlineGood g (hgood g hg).2 (hgood g hg).1
        exact Or.inr ⟨hgoodstr.2.2.2, hgoodstr.2.2.1⟩

theorem translate_text_val (tr : PyStr → Option PyStr) (text : PyStr)
    (h : pyStrip text ≠ []) :
    translate_text tr text =
      (joinSep ['\n', '\n'] (((splitNN text).map (translateBlock tr)).map Prod.fst),
       (((splitNN text).map (translateBlock tr)).map Prod.snd).sum) := by
  simp only [translate_text]
  rw [if_neg h]

theorem translateBlock_total (tr : PyStr → Option PyStr) (b : PyStr) :
    translateBlock tr b = translateBlock (fun c => some ((tr c).getD c)) b := by
  simp only [translateBlock]
  by_cases hs : pyStrip b = []
  · rw [if_pos hs, if_pos hs]
  · rw [if_neg hs, if_neg hs, translateChunksC_eq, translateChunksC_eq]
    have hmap : ∀ X : List PyStr,
        X.map (tryTranslate tr) = X.map (tryTranslate (fun c => some ((tr c).getD c))) := by
      intro X
      apply List.map_congr_left
      intro a _
      rw [tryTranslate_eq_getD, tryTranslate_eq_getD]
      rfl
    rw [hmap]

/-!
## Lemmas about the link parser
-/

theorem read_links_aux_eq : ∀ (doc : List PyStr) (links : List LinkItem),
    read_links_aux links doc = links ++ doc.filterMap parseLine
  | [], links => by
    rw [read_links_aux]
    simp
  | line :: rest, links => by
    simp only [read_links_aux, List.filterMap_cons]
    by_cases hd : (pyStrip line).head? = some '-'
    · rw [if_pos hd]
      cases hsr : reSearch (pyStrip line) with
      | none =>
        have hp : parseLine line = none := by
          simp only [parseLine]
          rw [if_pos hd, hsr]
          rfl
        rw [hp, read_links_aux_eq rest links]
      | some tu =>
        have hp : parseLine line = some ⟨tu.1, tu.2, none⟩ := by
          simp only [parseLine]
          rw [if_pos hd, hsr]
          rfl
        rw [hp]
        have hind : (pyStrip line).length -
            (List.dropWhile pyIsSpace (pyStrip line)).length = 0 := by
          rw [dropWhile_pyStrip]
          omega
        rw [hind]
        rw [if_neg (by omega)]
        show read_links_aux (links ++ [⟨tu.1, tu.2, none⟩]) rest
          = links ++ (⟨tu.1, tu.2, none⟩ :: List.filterMap parseLine rest)
        have hrec := read_links_aux_eq rest (links ++ [⟨tu.1, tu.2, none⟩])
        rw [hrec]
        simp

    · rw [if_neg hd]
      have hp : parseLine line = none := by
        simp only [parseLine]
        rw [if_neg hd]
      rw [hp, read_links_aux_eq rest links]

theorem parseLine_isSome_eq_isValidLine (line : PyStr) :
    (parseLine line).isSome = isValidLine line := by
  simp only [parseLine, isValidLine]
  by_cases hd : (pyStrip line).head? = some '-'
  · rw [if_pos hd]
    cases hsr : reSearch (pyStrip line) with
    | none => simp [hd, hsr]
    | some tu => simp [hd, hsr]
  · rw [if_neg hd]
    simp [hd]

theorem filterMap_parseLine_length : ∀ doc : List PyStr,
    (doc.filterMap parseLine).length = (doc.filter isValidLine).length
  | [] => rfl
  | line :: rest => by
    rw [List.filterMap_cons, List.filter_cons]
    cases hp : parseLine line with
    | none =>
      have hv : isValidLine line = false := by
        rw [← parseLine_isSome_eq_isValidLine, hp]
        rfl
      rw [hv]
      simp [filterMap_parseLine_length rest]
    | some item =>
      have hv : isValidLine line = true := by
        rw [← parseLine_isSome_eq_isValidLine, hp]
        rfl
      rw [hv]
      simp [filterMap_parseLine_length rest]

/-!
## Lemmas about the title extractor, the Markdown post-processing and
the id extraction
-/

theorem findTag_eq_head : ∀ (tag : PyStr) (d : Dom),
    findTag tag d =
      (((domElems d).filter (fun p => decide (p.1 = tag))).head?).map Prod.snd
  | _, .nil => rfl
  | tag, .textNode s rest => by
    rw [findTag, domElems]
    exact findTag_eq_head tag rest
  | tag, .elemNode t cs rest => by
    rw [findTag, domElems]
    by_cases h : t = tag
    · rw [if_pos h, List.filter_cons, if_pos (by simp [h])]
      rfl
    · rw [if_neg h, List.filter_cons, if_neg (by simp [h]), List.filter_append,
        findTag_eq_head tag cs, findTag_eq_head tag rest, List.head?_append]
      cases hc : ((domElems cs).filter (fun p => decide (p.1 = tag))).head? with
      | some p => simp
      | none => simp

theorem hasTriple_cons_of_ne (c : Char) (t : PyStr) (hc : ¬ c = '\n') :
    hasTriple (c :: t) = hasTriple t := by
  match t with
  | [] => rfl
  | [_] => rfl
  | x :: y :: r =>
    rw [hasTriple]
    simp [hc]

theorem hasTriple_pad1 (c : Char) (t : PyStr) (hc : ¬ c = '\n')
    (ht : hasTriple (c :: t) = false) : hasTriple ('\n' :: c :: t) = false := by
  cases t with
  | nil => rfl
  | cons t0 t' =>
    rw [hasTriple, ht]
    simp [hc]

theorem hasTriple_pad (m : Nat) (c : Char) (t : PyStr) (hm : m ≤ 2)
    (hc : ¬ c = '\n') (ht : hasTriple t = false) :
    hasTriple (List.replicate m '\n' ++ c :: t) = false := by
  have hct : hasTriple (c :: t) = false := by
    rw [hasTriple_cons_of_ne c t hc]
    exact ht
  have h1 : hasTriple ('\n' :: c :: t) = false := hasTriple_pad1 c t hc hct
  interval_cases m
  · simpa using hct
  · simpa using h1
  · show hasTriple ('\n' :: '\n' :: c :: t) = false
    rw [hasTriple, h1]
    simp [hc]

theorem hasTriple_replicate_le2 (m : Nat) (hm : m ≤ 2) :
    hasTriple (List.replicate m '\n') = false := by
  interval_cases m <;> decide

theorem hasTriple_collapseAux : ∀ (s : PyStr) (k : Nat),
    hasTriple (collapseAux k s) = false
  | [], k => hasTriple_replicate_le2 (min k 2) (by omega)
  | c :: rest, k => by
    rw [collapseAux]
    by_cases hc : c = '\n'
    · rw [if_pos hc]
      exact hasTriple_collapseAux rest (k + 1)
    · rw [if_neg hc]
      exact hasTriple_pad (min k 2) c (collapseAux 0 rest) (by omega) hc
        (hasTriple_collapseAux rest 0)

theorem dropWhile_replicate_append (p : Char → Bool) (a : Char) (hp : p a = true) :
    ∀ (k : Nat) (l : PyStr),
    List.dropWhile p (List.replicate k a ++ l) = List.dropWhile p l
  | 0, l => rfl
  | k + 1, l => by
    rw [List.replicate_succ, List.cons_append, List.dropWhile_cons, if_pos hp]
    exact dropWhile_replicate_append p a hp k l

theorem rstripSlash_append_replicate (u : PyStr) (k : Nat) :
    rstripSlash (u ++ List.replicate k '/') = rstripSlash u := by
  simp only [rstripSlash]
  rw [List.reverse_append, List.reverse_replicate,
    dropWhile_replicate_append _ '/' (by simp) k u.reverse]

theorem rstripSlash_no_trailing (u : PyStr) (h : u.getLast? ≠ some '/') :
    rstripSlash u = u := by
  simp only [rstripSlash]
  cases hu : u.reverse with
  | nil =>
    have hnil : u = [] := by
      have := congrArg List.reverse hu
      simpa using this
    subst hnil
    rfl
  | cons c r =>
    have hc : ¬ (c = '/') := by
      intro hh
      apply h
      rw [← List.head?_reverse, hu, hh]
      rfl
    rw [List.dropWhile_cons, if_neg (by simp [hc]), ← hu, List.reverse_reverse]

/-!
## Claim theorems
-/

/-- Claim C1 (corrected): as stated, the claim is false.  In this
two-line document the second link line has leading-whitespace
indentation 2 > 0 and a link was already parsed, yet the parsed item
has parent `none` rather than the first title: the code strips each
line before computing its indentation, so the indentation it tests is
always 0. -/
theorem claim_C1_counterexample :
    0 < ("  - [b](http://v)".data).length - (pyLstrip "  - [b](http://v)".data).length ∧
    read_links_from_docs_readme docIndent =
      [⟨"a".data, "http://u".data, none⟩, ⟨"b".data, "http://v".data, none⟩] ∧
    (read_links_from_docs_readme docIndent).map LinkItem.parent ≠ [none, some "a".data] := by
  refine ⟨by decide, by decide, by decide⟩

/-- Claim C1 (amended): every LinkItem the parser produces has
parent = none, because each line is stripped before the indentation is
computed, so the computed indentation is always 0 and the parent
branch never fires. -/
theorem claim_C1_amended (doc : List PyStr) (item : LinkItem)
    (h : item ∈ read_links_from_docs_readme doc) : item.parent = none := by
  rw [read_links_from_docs_readme, read_links_aux_eq doc []] at h
  simp only [List.nil_append] at h
  rcases List.mem_filterMap.mp h with ⟨line, _, hp⟩
  simp only [parseLine] at hp
  by_cases hd : (pyStrip line).head? = some '-'
  · rw [if_pos hd] at hp
    rcases Option.map_eq_some'.mp hp with ⟨tu, _, htu⟩
    rw [← htu]
  · rw [if_neg hd] at hp
    exact absurd hp (by simp)

/-- Witness for claim C1: a concrete document on which the amended
theorem applies. -/
theorem claim_C1_witness :
    (⟨"a".data, "http://u".data, none⟩ : LinkItem) ∈
      read_links_from_docs_readme docSingle ∧
    (⟨"a".data, "http://u".data, none⟩ : LinkItem).parent = none :=
  ⟨by decide, claim_C1_amended docSingle ⟨"a".data, "http://u".data, none⟩ (by decide)⟩

/-- Claim C6 (confirmed): an input that is empty or whitespace-only is
returned unchanged by `translate_text` and the backend is never
invoked. -/
theorem claim_C6 (tr : PyStr → Option PyStr) (text : PyStr)
    (h : pyStrip text = []) : translate_text tr text = (text, 0) := by
  simp only [translate_text]
  rw [if_pos h]

/-- Witness for claim C6 at a concrete whitespace-only input and an
always-failing backend. -/
theorem claim_C6_witness :
    pyStrip " \n ".data = [] ∧
    translate_text (fun _ => none) " \n ".data = (" \n ".data, 0) :=
  ⟨by decide, claim_C6 (fun _ => none) " \n ".data (by decide)⟩

/-- Claim C7 (confirmed): the parser result is exactly the per-line
filterMap of the document, so it has one item per valid link line, in
document order, and its length is the number of valid lines. -/
theorem claim_C7 (doc : List PyStr) :
    read_links_from_docs_readme doc = doc.filterMap parseLine ∧
    (read_links_from_docs_readme doc).length = (doc.filter isValidLine).length := by
  have h : read_links_from_docs_readme doc = doc.filterMap parseLine := by
    rw [read_links_from_docs_readme, read_links_aux_eq doc []]
    simp
  exact ⟨h, by rw [h]; exact filterMap_parseLine_length doc⟩

/-- Claim C5 (confirmed): each chunk is translated independently and
in position, a failing backend call is replaced by the original chunk
text, and the whole translator behaves exactly like one whose backend
never fails but substitutes the original text on failure — so a chunk
failure never propagates or aborts the document. -/
theorem claim_C5 (tr : PyStr → Option PyStr) (cs : List PyStr) (text : PyStr) :
    translateChunksC tr cs = (cs.map (fun c => (tr c).getD c), cs.length) ∧
    translate_text tr text = translate_text (fun c => some ((tr c).getD c)) text := by
  constructor
  · rw [translateChunksC_eq]
    congr 1
    exact List.map_congr_left (fun a _ => tryTranslate_eq_getD tr a)
  · by_cases h : pyStrip text = []
    · simp only [translate_text]
      rw [if_pos h, if_pos h]
    · rw [translate_text_val tr text h, translate_text_val _ text h]
      have hmap : (splitNN text).map (translateBlock tr) =
          (splitNN text).map (translateBlock (fun c => some ((tr c).getD c))) :=
        List.map_congr_left (fun b _ => translateBlock_total tr b)
      rw [hmap]

/-- Claim C9 (confirmed): for a URL whose last non-empty path segment
is `seg` (an arbitrary prefix, a slash, the segment, then any number
of trailing slashes), the output file name is `qiita_` ++ seg ++
`.md`. -/
theorem claim_C9 (pre seg : PyStr) (k : Nat) (hne : seg ≠ [])
    (hch : ∀ ch ∈ seg, ch ≠ '/') :
    qiitaFilename (pre ++ '/' :: (seg ++ List.replicate k '/')) =
      "qiita_".data ++ seg ++ ".md".data := by
  have h1 : pre ++ '/' :: (seg ++ List.replicate k '/')
      = (pre ++ '/' :: seg) ++ List.replicate k '/' := by
    simp
  have hgl : (pre ++ '/' :: seg).getLast? ≠ some '/' := by
    cases hsg : seg with
    | nil => exact absurd hsg hne
    | cons s0 seg' =>
      rw [List.getLast?_append, List.getLast?_cons_cons]
      cases hl : (s0 :: seg').getLast? with
      | none => exact absurd (List.getLast?_eq_none_iff.mp hl) (by simp)
      | some x =>
        have hx : x ∈ seg := by
          rw [hsg]
          exact List.mem_of_mem_getLast? (by rw [hl]; exact Option.mem_def.mpr rfl)
        intro hcon
        apply hch x hx
        simpa using hcon
  have h2 : rstripSlash (pre ++ '/' :: (seg ++ List.replicate k '/'))
      = pre ++ '/' :: seg := by
    rw [h1, rstripSlash_append_replicate, rstripSlash_no_trailing _ hgl]
  simp only [qiitaFilename, qiita_id_from_url]
  rw [h2, splitOnChar_append_sep '/' pre seg,
    splitOnChar_of_not_mem '/' seg (fun hm => hch '/' hm rfl),
    List.getLastD_concat]

/-- Witness for claim C9 at the concrete URL of the claim. -/
theorem claim_C9_witness :
    ("https://example.com/items".data ++ '/' ::
        ("abc123".data ++ List.replicate 0 '/'))
      = "https://example.com/items/abc123".data ∧
    qiitaFilename ("https://example.com/items".data ++ '/' ::
        ("abc123".data ++ List.replicate 0 '/'))
      = "qiita_abc123.md".data :=
  ⟨by decide,
   by
    rw [claim_C9 "https://example.com/items".data "abc123".data 0 (by decide)
      (by decide)]
    decide⟩

/-- Claim C2 (confirmed): on any text given to `translate_text`,
every chunk the packing loop produces either joins to at most 3500
characters (line lengths plus one separator between consecutive
lines), or is a single line longer than 3500 characters; moreover any
line longer than 3500 characters does end up as its own one-line
chunk. -/
theorem claim_C2 (text b : PyStr) (_hb : b ∈ splitNN text) :
    (∀ g ∈ chunkLines (splitOnChar '\n' (pyStrip b)), chunkOK g) ∧
    (∀ l ∈ splitOnChar '\n' (pyStrip b), 3500 < l.length →
      [l] ∈ chunkLines (splitOnChar '\n' (pyStrip b))) := by
  constructor
  · intro g hg
    refine chunkLinesAux_ok (splitOnChar '\n' (pyStrip b)) [] [] 0 ?_ ?_ ?_ g hg
    · intro g' hg'
      exact absurd hg' (List.not_mem_nil g')
    · exact Nat.le_refl 0
    · exact Or.inl (by omega)
  · intro l hl hlen
    exact chunkLinesAux_oversized_mem (splitOnChar '\n' (pyStrip b)) [] [] 0 l hl hlen

/-- Witness for claim C2 at a concrete two-line paragraph. -/
theorem claim_C2_witness :
    "hello\nworld".data ∈ splitNN "hello\nworld".data ∧
    ["hello".data, "world".data] ∈
      chunkLines (splitOnChar '\n' (pyStrip "hello\nworld".data)) ∧
    chunkOK ["hello".data, "world".data] :=
  ⟨by decide, by decide,
   (claim_C2 "hello\nworld".data "hello\nworld".data (by decide)).1
     ["hello".data, "world".data] (by decide)⟩

/-- Claim C8 (confirmed): whatever Markdown string the converter
produces, the post-processed result contains no run of three or more
consecutive newlines and carries no leading or trailing whitespace
(stripping it again changes nothing). -/
theorem claim_C8 (s : PyStr) :
    hasTriple (html_to_markdown_post s) = false ∧
    pyStrip (html_to_markdown_post s) = html_to_markdown_post s := by
  constructor
  · simp only [html_to_markdown_post, collapseNL]
    exact hasTriple_pyStrip _ (hasTriple_collapseAux s 0)
  · simp only [html_to_markdown_post]
    exact pyStrip_idem _

/-- Claim C3 (confirmed): with the identity backend, the translated
text splits on the double-newline separator into exactly as many
paragraphs as the input, and (for non-whitespace input) those
paragraphs are precisely the per-paragraph results in order — no
paragraph is lost, duplicated or merged. -/
theorem claim_C3 (text : PyStr) :
    (splitNN (translate_text idBackend text).1).length = (splitNN text).length ∧
    (pyStrip text ≠ [] →
      splitNN (translate_text idBackend text).1 =
        (splitNN text).map (fun b => (translateBlock idBackend b).1)) := by
  by_cases h : pyStrip text = []
  · have hval : translate_text idBackend text = (text, 0) := by
      simp only [translate_text]
      rw [if_pos h]
    rw [hval]
    exact ⟨rfl, fun hcon => absurd h hcon⟩
  · have hmain : splitNN (translate_text idBackend text).1 =
        (splitNN text).map (fun b => (translateBlock idBackend b).1) := by
      rw [translate_text_val idBackend text h]
      show splitNN (joinSep ['\n', '\n']
        (((splitNN text).map (translateBlock idBackend)).map Prod.fst)) = _
      have hmm : ((splitNN text).map (translateBlock idBackend)).map Prod.fst =
          (splitNN text).map (fun b => (translateBlock idBackend b).1) := by
        rw [List.map_map]
        rfl
      rw [hmm]
      apply splitNN_joinSep
      · intro hcon
        exact (splitNN_ne_nil text) (List.map_eq_nil_iff.mp hcon)
      · intro p hp
        rcases List.mem_map.mp hp with ⟨b, hb, hbp⟩
        rw [← hbp]
        exact translateBlock_id_good b (splitNN_pieces_hasNN text b hb)
    exact ⟨by rw [hmain, List.length_map], fun _ => hmain⟩

/-- Witness for claim C3 at a concrete two-paragraph text. -/
theorem claim_C3_witness :
    pyStrip "a\n\nb".data ≠ [] ∧
    splitNN (translate_text idBackend "a\n\nb".data).1 =
      (splitNN "a\n\nb".data).map (fun b => (translateBlock idBackend b).1) :=
  ⟨by decide, (claim_C3 "a\n\nb".data).2 (by decide)⟩

/-- Claim C10 (confirmed): when the first line of a paragraph alone
overflows the packing condition, the loop emits an empty chunk before
the one-line chunk holding that line, and with the identity backend
the paragraph output starts with a newline. -/
theorem claim_C10 (b l : PyStr) (ls : List PyStr)
    (hsplit : splitOnChar '\n' (pyStrip b) = l :: ls)
    (hlen : 3500 < l.length + 1) :
    (chunkLines (l :: ls)).take 2 = [[], [l]] ∧
    (translateBlock idBackend b).1.head? = some '\n' := by
  have hlen' : 3500 ≤ l.length := by omega
  have hchunk : chunkLines (l :: ls) = [] :: chunkLinesAux [] [l] l.length ls := by
    rw [chunkLines, chunkLinesAux, if_pos (by omega)]
    rw [chunkLinesAux_acc ls ([] ++ [[]])]
    rfl
  have hhead := chunkLinesAux_big_head ls l hlen'
  have hsne : pyStrip b ≠ [] := by
    intro hcon
    rw [hcon, splitOnChar] at hsplit
    injection hsplit with h1 h2
    rw [← h1] at hlen
    simp at hlen
  constructor
  · rw [hchunk]
    cases hA : chunkLinesAux [] [l] l.length ls with
    | nil =>
      rw [hA] at hhead
      simp at hhead
    | cons a as =>
      rw [hA] at hhead
      have ha : a = [l] := by simpa using hhead
      subst ha
      rfl
  · have hval : (translateBlock idBackend b).1 =
        joinSep ['\n'] ((chunkLines (splitOnChar '\n' (pyStrip b))).map (joinSep ['\n'])) := by
      rw [translateBlock_val idBackend b hsne]
      show joinSep ['\n'] (((chunkLines (splitOnChar '\n' (pyStrip b))).map
        (joinSep ['\n'])).map (tryTranslate idBackend)) = _
      rw [map_tryTranslate_id]
    rw [hval, hsplit, hchunk]
    cases hA : chunkLinesAux [] [l] l.length ls with
    | nil =>
      rw [hA] at hhead
      simp at hhead
    | cons a as =>
      rw [hA] at hhead
      have ha : a = [l] := by simpa using hhead
      subst ha
      rw [List.map_cons, List.map_cons,
        show joinSep ['\n'] ([] : List PyStr) = [] from rfl,
        show joinSep ['\n'] [l] = l from rfl, joinSep_cons_cons]
      rfl

/-- Witness for claim C10 at a paragraph consisting of a single
3500-character line. -/
theorem claim_C10_witness :
    splitOnChar '\n' (pyStrip bigLine) = [bigLine] ∧
    3500 < bigLine.length + 1 ∧
    (chunkLines [bigLine]).take 2 = [[], [bigLine]] ∧
    (translateBlock idBackend bigLine).1.head? = some '\n' := by
  have hstrip : pyStrip bigLine = bigLine := by
    simp only [pyStrip, bigLine]
    rw [List.dropWhile_replicate, if_neg (by decide), List.reverse_replicate,
      List.dropWhile_replicate, if_neg (by decide), List.reverse_replicate]
  have hsplit : splitOnChar '\n' (pyStrip bigLine) = [bigLine] := by
    rw [hstrip]
    apply splitOnChar_of_not_mem
    intro hmem
    have := (List.mem_replicate.mp (by rw [bigLine] at hmem; exact hmem)).2
    simp at this
  have hlen : 3500 < bigLine.length + 1 := by
    rw [bigLine, List.length_replicate]
    omega
  have h := claim_C10 bigLine bigLine [] hsplit hlen
  exact ⟨hsplit, hlen, h.1, h.2⟩

/-- Claim C4 (corrected): as stated, the claim is false.  In this
document the first h1 element has empty text and a later h1 has the
non-empty text Hello, so the claim demands Hello; the code only
consults the first h1 element and falls back to the title text T. -/
theorem claim_C4_counterexample :
    get_title_from_html domFirstEmptyH1 = "T".data ∧
    getTitleClaimC4 domFirstEmptyH1 = "Hello".data ∧
    get_title_from_html domFirstEmptyH1 ≠ getTitleClaimC4 domFirstEmptyH1 := by
  refine ⟨by decide, by decide, by decide⟩

/-- Claim C4 (amended): `get_title_from_html` returns the stripped
text of the first h1 element if that text is non-empty, else the
stripped text of the first title element if non-empty, else the empty
string — where first means first in document order. -/
theorem claim_C4_amended (d : Dom) :
    get_title_from_html d = getTitleAmendedC4 d := by
  simp only [get_title_from_html, getTitleAmendedC4, titleFallbackOf, titleAmendedOf,
    findTag_eq_head]
  cases h1 : ((domElems d).filter (fun p => decide (p.1 = "h1".data))).head? with
  | none =>
    simp only [h1, Option.map_none']
    cases h2 : ((domElems d).filter (fun p => decide (p.1 = "title".data))).head? with
    | none => simp [h2]
    | some t => simp [h2]
  | some p =>
    simp only [h1, Option.map_some']
    cases h2 : ((domElems d).filter (fun p => decide (p.1 = "title".data))).head? with
    | none => simp [h2]
    | some t => simp [h2]
